import Mathlib

/-!
Verification development for the BSP room-model builder (`room_model.h`).

The source constructs a binary space partitioning tree from room walls,
harmonises the identifiers of the produced wall fragments, groups coplanar
fragments in a plane-polygon map and unifies the per-group directly-reflectable
sets.  Machine floating point is embedded as exact rationals, the raw pointers
of the source become indices into explicit wall arenas, and the external
geometric kernel (GraphicsGems spatial partitioning: `whichSide`, `split`) is
either instantiated with the exact classifier the spec describes or kept as an
explicit function parameter.
-/

namespace RoomModel

/-- Three-way classification of a point against a plane, as returned by the
external geometric kernel. -/
inductive Side where
  | ABOVE
  | ON
  | BELOW
deriving DecidableEq

/-- A rational 3D point (the kernel's `Point`). -/
abbrev Q3 := ℚ × ℚ × ℚ

/-- A plane `a*x + b*y + c*z + d = 0` (the kernel's `Plane`). -/
structure PlaneQ where
  a : ℚ
  b : ℚ
  c : ℚ
  d : ℚ
deriving DecidableEq, Inhabited

/-- The external kernel's exact three-way plane classification (spec section 6;
the kernel itself is outside the repository).  `ABOVE` is the positive side of
the plane normal. -/
def whichSide (pl : PlaneQ) (p : Q3) : Side :=
  let v := pl.a * p.1 + pl.b * p.2.1 + pl.c * p.2.2 + pl.d
  if 0 < v then Side.ABOVE else if v < 0 then Side.BELOW else Side.ON

/-- Modelled from the spec: `wall.h` is not part of the given sources; the
fields follow the data model of spec section 3 (id, corner ring, normal,
offset, material reference, enabled flag, parent id, plane-group id,
directly-reflectable set, force-loaded flag).  Non-owning references
(material, reflectables) are indices into arenas. -/
structure Wall where
  id : Nat
  corners : List Q3
  n : Q3
  d : ℚ
  material : Nat
  enabled : Bool
  force_loaded : Bool
  parent_id : Nat
  plane_polygon_map_id : Nat
  direct_reflectables : List Nat
deriving DecidableEq, Inhabited

/-- The kernel polygon representation: a vertex ring, its supporting plane and
the originating wall index (`m_parentID`). -/
structure PolygonSpatial where
  points : List Q3
  plane : PlaneQ
  m_parentID : Nat
deriving DecidableEq, Inhabited

/-- Conversion of one wall in `room_model::construct_polygonspatial_model`:
the polygon receives the corner ring, `(int)i.id` as its parent id, the three
normal components and the plane offset. -/
def wallToPoly (w : Wall) : PolygonSpatial :=
  { points := w.corners
    plane := { a := w.n.1, b := w.n.2.1, c := w.n.2.2, d := w.d }
    m_parentID := w.id }

/-- `room_model::construct_polygonspatial_model`: walls are scanned in order
and a wall is converted only when its `enabled` flag is set. -/
def construct_polygonspatial_model : List Wall → List PolygonSpatial
  | [] => []
  | w :: ws =>
    if w.enabled then wallToPoly w :: construct_polygonspatial_model ws
    else construct_polygonspatial_model ws

/-- Conversion of one polygon in `room_model::construct_rtswall_model`: the
local variable `id` stays 0 throughout the source loop (the trailing `i++`
increments the loop pointer, not `id`), the corner ring is read off the edge
ring, and normal, offset and material are force-loaded from the parent wall
(`walls[m_parentID]`). -/
def polyToWall (origWalls : List Wall) (p : PolygonSpatial) : Wall :=
  let parent := origWalls.getD p.m_parentID default
  { id := p.m_parentID * 10000 + 0
    corners := p.points
    n := parent.n
    d := parent.d
    material := parent.material
    enabled := true
    force_loaded := true
    parent_id := p.m_parentID
    plane_polygon_map_id := 0
    direct_reflectables := [] }

/-- `room_model::construct_rtswall_model`. -/
def construct_rtswall_model (origWalls : List Wall) (polys : List PolygonSpatial) : List Wall :=
  polys.map (polyToWall origWalls)

/-- The convexity scan of `build_BSP`: the subspace is convex when no vertex of
any polygon lies strictly below the plane of another polygon (pointer
disequality `i != j` becomes position disequality). -/
def subspace_convex (polys : List PolygonSpatial) : Bool :=
  polys.enum.all fun pa =>
    polys.enum.all fun pb =>
      pa.1 == pb.1 || pb.2.points.all fun q => !(whichSide pa.2.plane q == Side.BELOW)

/-- One row of the `measures` table of `build_BSP`. -/
structure Measure where
  wid : Nat
  behind : Nat
  infront : Nat
  crosses : Nat
deriving DecidableEq, Inhabited

/-- Classification flags of `build_BSP`: whether polygon `pb` has a vertex
strictly below, respectively strictly above, the given plane. -/
def sideFlags (pl : PlaneQ) (pb : PolygonSpatial) : Bool × Bool :=
  (pb.points.any fun q => whichSide pl q == Side.BELOW,
   pb.points.any fun q => whichSide pl q == Side.ABOVE)

/-- One step of the per-candidate counting loop of `build_BSP`: polygon
`tjpb` (skipped when it is the candidate itself) counts as behind, in front (a
coincident polygon also counts as in front: the default case of the source) or
crossing. -/
def measureStep (ti : Nat) (pa : PolygonSpatial) (m : Measure) (tjpb : Nat × PolygonSpatial) :
    Measure :=
  if tjpb.1 = ti then m
  else
    let fl := sideFlags pa.plane tjpb.2
    if fl.1 && !fl.2 then { m with behind := m.behind + 1 }
    else if !fl.1 && fl.2 then { m with infront := m.infront + 1 }
    else if fl.1 && fl.2 then { m with crosses := m.crosses + 1 }
    else { m with infront := m.infront + 1 }

/-- The per-candidate counting loop of `build_BSP`. -/
def measureOf (polys : List PolygonSpatial) (ti : Nat) (pa : PolygonSpatial) : Measure :=
  polys.enum.foldl (measureStep ti pa) { wid := ti, behind := 0, infront := 0, crosses := 0 }

/-- The `measures` table of `build_BSP` (`temp_id` is the input position). -/
def measuresOf (polys : List PolygonSpatial) : List Measure :=
  polys.enum.map fun tp => measureOf polys tp.1 tp.2

/-- One row of the `r_p` table of `build_BSP`. -/
structure RpEntry where
  wid : Nat
  score : ℚ
  crosses : Nat
deriving DecidableEq, Inhabited

/-- The Ranta-Eskola balance score of `build_BSP`: an explicit zero branch for
either side count being zero, else `min(behind/infront, infront/behind)`. -/
def scoreOf (behind infront : Nat) : ℚ :=
  if behind = 0 then 0
  else if infront = 0 then 0
  else min ((behind : ℚ) / (infront : ℚ)) ((infront : ℚ) / (behind : ℚ))

/-- The `r_p` table of `build_BSP`. -/
def rpOf (polys : List PolygonSpatial) : List RpEntry :=
  (measuresOf polys).map fun m =>
    { wid := m.wid, score := scoreOf m.behind m.infront, crosses := m.crosses }

/-- `x ≤ y` on a sort key.  `std::sort` with a strict key comparator is
modelled as the stable insertion sort on the reflexive key order: for the wall
counts at hand libstdc++'s `std::sort` runs its insertion-sort path, which is
stable. -/
def keyLe {α K : Type} [LinearOrder K] (k : α → K) : α → α → Prop :=
  fun x y => k x ≤ k y

instance {α K : Type} [LinearOrder K] (k : α → K) : DecidableRel (keyLe k) :=
  fun x y => inferInstanceAs (Decidable (k x ≤ k y))

instance {α K : Type} [LinearOrder K] (k : α → K) : IsTotal α (keyLe k) :=
  ⟨fun x y => le_total (k x) (k y)⟩

instance {α K : Type} [LinearOrder K] (k : α → K) : IsTrans α (keyLe k) :=
  ⟨fun _ _ _ h h' => le_trans h h'⟩

/-- The candidate table after the first `std::sort` of `build_BSP` (ascending
number of crossings). -/
def rpSorted (polys : List PolygonSpatial) : List RpEntry :=
  List.insertionSort (keyLe RpEntry.crosses) (rpOf polys)

/-- The first selection scan of `build_BSP`: the first entry of the
crossing-sorted table whose score meets the threshold. -/
def thresholdPick (polys : List PolygonSpatial) (t : ℚ) : Option RpEntry :=
  (rpSorted polys).find? fun e => decide (t ≤ e.score)

/-- The fallback table of `build_BSP`: each score of the crossing-sorted table
is replaced in place by its distance to the threshold, and the table is sorted
again by that distance. -/
def fallbackSorted (polys : List PolygonSpatial) (t : ℚ) : List RpEntry :=
  List.insertionSort (keyLe RpEntry.score)
    ((rpSorted polys).map fun e => { e with score := |e.score - t| })

/-- The splitting-plane choice of `build_BSP` (`wall_id`). -/
def selectSplitter (polys : List PolygonSpatial) (t : ℚ) : Nat :=
  match thresholdPick polys t with
  | some e => e.wid
  | none => (fallbackSorted polys t).headI.wid

/-- `BSPNode`; the null child pointers of the source become `nil`. -/
inductive BSPTree where
  | nil : BSPTree
  | node (node_walls : List Wall) (front : BSPTree) (back : BSPTree) (leaf_node : Bool) : BSPTree
deriving DecidableEq, Inhabited

/-- Number of nodes of a subtree. -/
def BSPTree.size : BSPTree → Nat
  | .nil => 0
  | .node _ f b _ => 1 + f.size + b.size

/-- The external kernel's `split` primitive (fragments of one polygon put
above, on and below a plane).  It is outside the repository, so `build_BSP` is
modelled as a function of it. -/
abbrev SplitFun :=
  PolygonSpatial → PlaneQ → List PolygonSpatial × List PolygonSpatial × List PolygonSpatial

/-- The bucket collection of `build_BSP`: every polygon other than the
partition wall is split against its plane. -/
def splitBuckets (split : SplitFun) (polys : List PolygonSpatial) (wid : Nat) (pl : PlaneQ) :
    List PolygonSpatial × List PolygonSpatial × List PolygonSpatial :=
  polys.enum.foldl
    (fun acc ip =>
      if ip.1 = wid then acc
      else
        let r := split ip.2 pl
        (acc.1 ++ r.1, acc.2.1 ++ r.2.1, acc.2.2 ++ r.2.2))
    ([], [], [])

/-- `room_model::build_BSP`, with explicit recursion fuel standing for the
unbounded recursion of the source (`none` = fuel exhausted).  The produced-wall
accumulator is returned as a list: front subtree first, then back subtree, then
this node's walls, matching the append order of the source.  The blocking
candidate initialisation of the source (`init_wall_state`,
`sort_blockables_by_dist`, `update_blockable_walls`, all in the missing
`wall.h`) touches only blockable state no claim observes and is not modelled. -/
def buildBSP (origWalls : List Wall) (split : SplitFun) (t : ℚ) :
    Nat → List PolygonSpatial → Option (BSPTree × List Wall)
  | 0, _ => none
  | fuel + 1, polys =>
    if polys.isEmpty then some (BSPTree.nil, [])
    else if subspace_convex polys then
      let nw := construct_rtswall_model origWalls polys
      some (BSPTree.node nw BSPTree.nil BSPTree.nil true, nw)
    else
      let wid := selectSplitter polys t
      let pw := polys.getD wid default
      let buckets := splitBuckets split polys wid pw.plane
      let onPolys := pw :: buckets.2.1
      let myWalls := construct_rtswall_model origWalls onPolys
      match buildBSP origWalls split t fuel buckets.1,
            buildBSP origWalls split t fuel buckets.2.2 with
      | some fr, some ba => some (BSPTree.node myWalls fr.1 ba.1 false, fr.2 ++ ba.2 ++ myWalls)
      | _, _ => none

/-- Write through a wall pointer: update the arena entry at `i` (an
out-of-range index leaves the arena unchanged; theorems carry explicit
in-range hypotheses where it matters). -/
def modifyWall (arena : List Wall) (i : Nat) (f : Wall → Wall) : List Wall :=
  match arena.get? i with
  | some w => arena.set i (f w)
  | none => arena

/-- The inner identifier loop of `set_up_room_model` for one original index
`i`: walk the produced walls in production order; each wall whose `parent_id`
is `i` receives id `parent_id * 1000 + counter`, and the counter is bumped. -/
def harmonizeInner (i : Nat) (arena : List Wall) (counter : Nat) : List Nat → List Wall
  | [] => arena
  | p :: rest =>
    if (arena.getD p default).parent_id = i then
      harmonizeInner i
        (modifyWall arena p fun w => { w with id := w.parent_id * 1000 + counter })
        (counter + 1) rest
    else harmonizeInner i arena counter rest

/-- The identifier-harmonisation pass of `set_up_room_model` (lines 82-90):
the inner loop runs for every original wall index, the counter restarting at
0. -/
def harmonize (nOrig : Nat) (pidx : List Nat) (arena : List Wall) : List Wall :=
  (List.range nOrig).foldl (fun ar i => harmonizeInner i ar 0 pidx) arena

/-- One entry of the plane-polygon map: the first pushed wall (`group[0]`, the
comparison representative) plus the walls appended later. -/
structure Group where
  rep : Nat
  rest : List Nat
deriving DecidableEq, Inhabited

/-- All walls of a group, representative first. -/
def Group.members (g : Group) : List Nat := g.rep :: g.rest

/-- `signbit` on the modelled exact scalars. -/
def signbitQ (x : ℚ) : Bool := decide (x < 0)

/-- The coplanarity test of `create_plane_polygon_map`: component-wise equality
of the normals (with the sign-bit comparison of the source) and equality of the
plane offsets. -/
def same_normal (rep w : Wall) : Bool :=
  (rep.n.1 == w.n.1 && signbitQ w.n.1 == signbitQ rep.n.1) &&
  (rep.n.2.1 == w.n.2.1 && signbitQ w.n.2.1 == signbitQ rep.n.2.1) &&
  (rep.n.2.2 == w.n.2.2 && signbitQ w.n.2.2 == signbitQ rep.n.2.2) &&
  rep.d == w.d

/-- The group-scan loop of `create_plane_polygon_map` for one enabled wall,
with fuel because the loop bound `plane_polygon_map.size()` is re-read while
the loop itself can grow the map: skip a group whose representative carries
this wall's id; join the first group whose representative is coplanar (break);
if the last group is reached without a match, append a fresh group (no break:
the scan continues over the grown map). -/
def innerScan (w : Nat) : Nat → Nat → List Group → List Wall → Option (List Group × List Wall)
  | 0, _, _, _ => none
  | fuel + 1, i, pmap, arena =>
    if h : i < pmap.length then
      let g := pmap.get ⟨i, h⟩
      if (arena.getD w default).id = (arena.getD g.rep default).id then
        innerScan w fuel (i + 1) pmap arena
      else if same_normal (arena.getD g.rep default) (arena.getD w default) then
        some (pmap.set i { g with rest := g.rest ++ [w] },
              modifyWall arena w fun x => { x with plane_polygon_map_id := i })
      else if i = pmap.length - 1 then
        innerScan w fuel (i + 1) (pmap ++ [{ rep := w, rest := [] }])
          (modifyWall arena w fun x => { x with plane_polygon_map_id := i + 1 })
      else innerScan w fuel (i + 1) pmap arena
    else some (pmap, arena)

/-- One outer-loop step of `create_plane_polygon_map`: a disabled wall is
skipped outright; an enabled wall runs the group scan. -/
def processWall (pmap : List Group) (arena : List Wall) (w : Nat) :
    Option (List Group × List Wall) :=
  if (arena.getD w default).enabled then innerScan w (pmap.length + 3) 0 pmap arena
  else some (pmap, arena)

/-- `room_model::create_plane_polygon_map`.  The member state
`plane_polygon_map` is threaded explicitly (`pmap0` is its value on entry;
`set_up_room_model` reaches the pass with the empty map).  The walls are first
sorted by ascending id, the first wall is pushed unconditionally as a new
group and `plane_polygon_map[0][0]` (the head of the full map) receives group
id 0.  `none` models the unchecked `walls_to_check[0]` access on empty input;
the fuel of the scan never runs out (see `innerScan_isSome` below). -/
def create_plane_polygon_map (pmap0 : List Group) (arena : List Wall) (idxs : List Nat) :
    Option (List Group × List Wall) :=
  match List.insertionSort (keyLe fun p => (arena.getD p default).id) idxs with
  | [] => none
  | w0 :: rest =>
    let pmap1 := pmap0 ++ [{ rep := w0, rest := [] }]
    let arena1 := modifyWall arena pmap1.headI.rep fun x => { x with plane_polygon_map_id := 0 }
    (w0 :: rest).foldlM (fun st x => processWall st.1 st.2 x) (pmap1, arena1)

/-- `std::unique` on a list: drop adjacent duplicates. -/
def unique_sorted : List Nat → List Nat
  | [] => []
  | [a] => [a]
  | a :: b :: rest => if a = b then unique_sorted (b :: rest) else a :: unique_sorted (b :: rest)

/-- The per-group union of `set_up_room_model` (lines 110-123): concatenate the
members' directly-reflectable lists in member order, sort (the pointer order of
the source becomes the index order of the arena) and drop duplicates. -/
def unify_reflectables (arena : List Wall) (members : List Nat) : List Nat :=
  unique_sorted (List.insertionSort (· ≤ ·)
    (members.flatMap fun m => (arena.getD m default).direct_reflectables))

/-- The aggregation loop of `set_up_room_model`: for each plane group the
unified list is computed from the current state and written to `group[0]` (the
representative) only. -/
def aggregate_reflectables (pmap : List Group) (arena : List Wall) : List Wall :=
  pmap.foldl
    (fun ar g => modifyWall ar g.rep fun x => { x with direct_reflectables := unify_reflectables ar g.members })
    arena

/-- `room_model::disable_selected_walls`: `walls.at(wall_id)` raises
`std::out_of_range` for an index at or beyond the wall count (the error value
carries the offending index); an in-range index has its wall's `enabled` flag
cleared. -/
def disable_selected_walls (toDisable : List Nat) (walls : List Wall) : Except Nat (List Wall) :=
  match toDisable with
  | [] => Except.ok walls
  | i :: rest =>
    if i < walls.length then
      disable_selected_walls rest (modifyWall walls i fun w => { w with enabled := false })
    else Except.error i

/-- A concrete wall, for fixtures. -/
def mkWall (i : Nat) (en : Bool) (nrm : Q3) (dOfs : ℚ) (dr : List Nat) : Wall :=
  { id := i, corners := [], n := nrm, d := dOfs, material := 0, enabled := en,
    force_loaded := false, parent_id := 0, plane_polygon_map_id := 0,
    direct_reflectables := dr }

/-- A concrete wall with a given parent index, for fixtures. -/
def mkPWall (i parent : Nat) : Wall :=
  { mkWall i true (0, 0, 1) 0 [] with parent_id := parent }

/-- A one-triangle convex fixture. -/
def convexFixture : List PolygonSpatial :=
  [{ points := [(0, 0, 0), (1, 0, 0), (1, 1, 0)],
     plane := { a := 0, b := 0, c := 1, d := 0 }, m_parentID := 0 }]

/-- An enabled and a disabled wall, for the conversion fixture. -/
def enabledPairFixture : List Wall :=
  [mkWall 0 true (0, 0, 1) 0 [], mkWall 1 false (0, 0, 1) 0 []]

/-- Lexicographic refinement: first the sort key, ties resolved by the
previous order `s`.  A stable sort by `keyLe k` of an `s`-sorted list is
sorted by `lexRel k s`. -/
def lexRel {α K : Type} [LinearOrder K] (k : α → K) (s : α → α → Prop) :
    α → α → Prop :=
  fun x y => k x < k y ∨ (k x = k y ∧ s x y)

/-- Candidate order by ascending cross count, ties by input order (`wid` is
the input position, see `rpOf_wid`). -/
def lexCrossInput (e q : RpEntry) : Prop :=
  e.crosses < q.crosses ∨ (e.crosses = q.crosses ∧ e.wid ≤ q.wid)

/-- Candidate order by distance of the balance score to the threshold, ties
first by ascending cross count, then by input order. -/
def lexDevCrossInput (t : ℚ) (e q : RpEntry) : Prop :=
  |e.score - t| < |q.score - t| ∨ (|e.score - t| = |q.score - t| ∧ lexCrossInput e q)

/-- The fallback choice exactly as the claim words it ("the candidate whose
balance score is numerically closest to the threshold; ties broken by input
order — the first candidate in input order wins"): the leftmost entry of the
`r_p` table (which is in input order) minimising the distance to the
threshold.  Stated for refutation: the source's stacked sorts do not implement
this. -/
def claimFallbackChoice (polys : List PolygonSpatial) (t : ℚ) : Nat :=
  ((rpOf polys).foldl
    (fun best x => if |x.score - t| < |best.score - t| then x else best)
    (rpOf polys).headI).wid

/-- Three walls: one spanning rectangle crossed by two parallel side walls.
Candidate 0 crosses both others (cross count 2); candidates 1 and 2 have cross
count 1; every balance score is 0, so with threshold 1 every candidate ties at
deviation 1. -/
def cexPolys : List PolygonSpatial :=
  [{ points := [(0, 0, 0), (3, 0, 0), (3, 0, 1), (0, 0, 1)],
     plane := { a := 0, b := 1, c := 0, d := 0 }, m_parentID := 0 },
   { points := [(1, -1, 0), (1, 1, 0), (1, 1, 1), (1, -1, 1)],
     plane := { a := 1, b := 0, c := 0, d := -1 }, m_parentID := 1 },
   { points := [(2, -1, 0), (2, 1, 0), (2, 1, 1), (2, -1, 1)],
     plane := { a := 1, b := 0, c := 0, d := -2 }, m_parentID := 2 }]

/-- The golden fixture of the spec: three mutually-crossing walls. -/
def trioPolys : List PolygonSpatial :=
  [{ points := [(-1, 0, -1), (1, 0, -1), (1, 0, 1), (-1, 0, 1)],
     plane := { a := 0, b := 1, c := 0, d := 0 }, m_parentID := 0 },
   { points := [(0, -1, -1), (0, 1, -1), (0, 1, 1), (0, -1, 1)],
     plane := { a := 1, b := 0, c := 0, d := 0 }, m_parentID := 1 },
   { points := [(-1, -1, 0), (1, -1, 0), (1, 1, 0), (-1, 1, 0)],
     plane := { a := 0, b := 0, c := 1, d := 0 }, m_parentID := 2 }]

/-! ### Helper lemmas on arena writes -/

theorem modifyWall_length (arena : List Wall) (i : Nat) (f : Wall → Wall) :
    (modifyWall arena i f).length = arena.length := by
  unfold modifyWall
  cases h : arena.get? i <;> simp

theorem getD_modifyWall_self {arena : List Wall} {i : Nat} (h : i < arena.length)
    (f : Wall → Wall) (d : Wall) :
    (modifyWall arena i f).getD i d = f (arena.getD i d) := by
  unfold modifyWall
  rcases List.get?_eq_get h with hg
  rw [hg]
  simp [List.getD_eq_getElem?_getD, List.getElem?_set_self, h, ← List.get?_eq_getElem?, hg]

theorem getD_modifyWall_ne {arena : List Wall} {i j : Nat} (h : i ≠ j)
    (f : Wall → Wall) (d : Wall) :
    (modifyWall arena i f).getD j d = arena.getD j d := by
  unfold modifyWall
  cases hg : arena.get? i with
  | none => rfl
  | some w => simp [List.getD_eq_getElem?_getD, List.getElem?_set_ne h]

/-! ### C9: disabled walls are excluded from the kernel conversion -/

/-- C9: `construct_polygonspatial_model` converts exactly the walls whose
`enabled` flag is true, in order, so no disabled input wall reaches the kernel
polygon representation (and hence neither the tree nor the produced wall list,
both of which are built from that representation only). -/
theorem construct_polygonspatial_model_enabled_only (ws : List Wall) :
    construct_polygonspatial_model ws = (ws.filter fun w => w.enabled).map wallToPoly ∧
    ∀ p ∈ construct_polygonspatial_model ws, ∃ w ∈ ws, w.enabled = true ∧ p = wallToPoly w := by
  constructor
  · induction ws with
    | nil => rfl
    | cons w ws ih =>
      by_cases hw : w.enabled <;> simp [construct_polygonspatial_model, hw, List.filter_cons, ih]
  · induction ws with
    | nil => intro p hp; cases hp
    | cons w ws ih =>
      intro p hp
      by_cases hw : w.enabled
      · rw [construct_polygonspatial_model, if_pos hw] at hp
        rcases List.mem_cons.1 hp with h | h
        · exact ⟨w, List.mem_cons_self _ _, hw, h⟩
        · rcases ih p h with ⟨w', hw', he, hp'⟩
          exact ⟨w', List.mem_cons_of_mem _ hw', he, hp'⟩
      · rw [construct_polygonspatial_model, if_neg hw] at hp
        rcases ih p hp with ⟨w', hw', he, hp'⟩
        exact ⟨w', List.mem_cons_of_mem _ hw', he, hp'⟩

theorem construct_polygonspatial_model_enabled_only_witness :
    construct_polygonspatial_model enabledPairFixture =
      ((enabledPairFixture.filter fun w => w.enabled).map wallToPoly) ∧
    ∀ p ∈ construct_polygonspatial_model enabledPairFixture,
      ∃ w ∈ enabledPairFixture, w.enabled = true ∧ p = wallToPoly w :=
  construct_polygonspatial_model_enabled_only enabledPairFixture

/-! ### C2: convex input produces a single leaf -/

/-- C2: on a non-empty input set that passes the convexity scan, `build_BSP`
returns exactly one node — a leaf, both children absent, whose wall set is the
converted input (`construct_rtswall_model` of the whole input) and whose walls
are exactly what is appended to the accumulator — and on the empty input it
returns the empty result with nothing appended. -/
theorem buildBSP_convex_leaf (origWalls : List Wall) (split : SplitFun) (t : ℚ)
    (fuel : Nat) (polys : List PolygonSpatial)
    (hne : polys ≠ []) (hcx : subspace_convex polys = true) :
    buildBSP origWalls split t (fuel + 1) polys =
      some (BSPTree.node (construct_rtswall_model origWalls polys) BSPTree.nil BSPTree.nil true,
            construct_rtswall_model origWalls polys) ∧
    (BSPTree.node (construct_rtswall_model origWalls polys) BSPTree.nil BSPTree.nil true).size = 1 ∧
    buildBSP origWalls split t (fuel + 1) ([] : List PolygonSpatial) = some (BSPTree.nil, []) := by
  refine ⟨?_, by simp [BSPTree.size], by simp [buildBSP]⟩
  have h1 : polys.isEmpty = false := by
    cases polys with
    | nil => cases hne rfl
    | cons a l => rfl
  simp [buildBSP, h1, hcx]

theorem buildBSP_convex_leaf_witness :
    convexFixture ≠ [] ∧ subspace_convex convexFixture = true ∧
      (buildBSP [] (fun _ _ => ([], [], [])) 1 1 convexFixture =
        some (BSPTree.node (construct_rtswall_model [] convexFixture) BSPTree.nil BSPTree.nil true,
              construct_rtswall_model [] convexFixture) ∧
       (BSPTree.node (construct_rtswall_model [] convexFixture) BSPTree.nil BSPTree.nil true).size = 1 ∧
       buildBSP [] (fun _ _ => ([], [], [])) 1 1 ([] : List PolygonSpatial) =
         some (BSPTree.nil, [])) :=
  ⟨by decide, by decide,
   buildBSP_convex_leaf [] (fun _ _ => ([], [], [])) 1 0 convexFixture (by decide) (by decide)⟩

/-! ### C8: disabling walls fails fast on out-of-range indices -/

/-- C8: `disable_selected_walls` raises an explicit out-of-range fault whenever
some configured index is at or beyond the wall count (it is never silently
skipped), and when every index is in range it succeeds, clearing the `enabled`
flag of exactly the listed walls. -/
theorem disable_selected_walls_spec (toDisable : List Nat) (walls : List Wall) :
    ((∃ i ∈ toDisable, walls.length ≤ i) →
      ∃ j ∈ toDisable, walls.length ≤ j ∧
        disable_selected_walls toDisable walls = Except.error j) ∧
    ((∀ i ∈ toDisable, i < walls.length) →
      ∃ ws, disable_selected_walls toDisable walls = Except.ok ws ∧
        ws.length = walls.length ∧
        (∀ i ∈ toDisable, (ws.getD i default).enabled = false) ∧
        (∀ j, j ∉ toDisable → ws.getD j default = walls.getD j default)) := by
  induction toDisable generalizing walls with
  | nil =>
    refine ⟨fun h => absurd h (by simp), fun _ => ⟨walls, rfl, rfl, by simp, fun _ _ => rfl⟩⟩
  | cons i rest ih =>
    constructor
    · rintro ⟨j, hj, hlen⟩
      by_cases hi : i < walls.length
      · rw [disable_selected_walls, if_pos hi]
        have hj' : j ∈ rest := by
          rcases List.mem_cons.1 hj with h | h
          · subst h; omega
          · exact h
        rcases (ih (modifyWall walls i fun w => { w with enabled := false })).1
            ⟨j, hj', by rw [modifyWall_length]; exact hlen⟩ with ⟨j', hj'', hlen', heq⟩
        exact ⟨j', List.mem_cons_of_mem _ hj'', by rwa [modifyWall_length] at hlen', heq⟩
      · exact ⟨i, List.mem_cons_self _ _, by omega, by rw [disable_selected_walls, if_neg hi]⟩
    · intro hall
      have hi : i < walls.length := hall i (List.mem_cons_self _ _)
      rw [disable_selected_walls, if_pos hi]
      set walls1 := modifyWall walls i fun w => { w with enabled := false } with hw1
      have hlen1 : walls1.length = walls.length := modifyWall_length _ _ _
      rcases (ih walls1).2 (fun j hj => by rw [hlen1]; exact hall j (List.mem_cons_of_mem _ hj))
        with ⟨ws, hws, hlen, hdis, hkeep⟩
      refine ⟨ws, hws, by rw [hlen, hlen1], ?_, ?_⟩
      · intro p hp
        rcases List.mem_cons.1 hp with h | h
        · subst h
          by_cases hpr : p ∈ rest
          · exact hdis p hpr
          · rw [hkeep p hpr, hw1, getD_modifyWall_self hi]
        · exact hdis p h
      · intro j hj
        have hj1 : j ∉ rest := fun h => hj (List.mem_cons_of_mem _ h)
        have hji : i ≠ j := fun h => hj (h ▸ List.mem_cons_self _ _)
        rw [hkeep j hj1, hw1, getD_modifyWall_ne hji]

theorem disable_selected_walls_spec_witness :
    (∀ i ∈ [1], i < ([default, default] : List Wall).length) ∧
      ∃ ws, disable_selected_walls [1] [default, default] = Except.ok ws ∧
        ws.length = ([default, default] : List Wall).length ∧
        (∀ i ∈ [1], (ws.getD i default).enabled = false) ∧
        (∀ j, j ∉ [1] → ws.getD j default = ([default, default] : List Wall).getD j default) :=
  ⟨by decide, (disable_selected_walls_spec [1] [default, default]).2 (by decide)⟩

/-! ### Helper lemmas for the reflectable aggregation -/

theorem flatMap_congr {mem : List Nat} {f g : Nat → List Nat}
    (h : ∀ m ∈ mem, f m = g m) : mem.flatMap f = mem.flatMap g := by
  induction mem with
  | nil => rfl
  | cons a l ih =>
    simp only [List.flatMap_cons]
    rw [h a (List.mem_cons_self _ _), ih fun m hm => h m (List.mem_cons_of_mem _ hm)]

theorem unique_sorted_mem {l : List Nat} {x : Nat} : x ∈ unique_sorted l ↔ x ∈ l := by
  induction l using unique_sorted.induct with
  | case1 => simp [unique_sorted]
  | case2 a => simp [unique_sorted]
  | case3 b rest ih =>
    rw [unique_sorted, if_pos rfl]
    rw [ih]
    simp only [List.mem_cons]
    tauto
  | case4 a b rest hab ih =>
    rw [unique_sorted, if_neg hab]
    simp only [List.mem_cons, ih]

theorem unique_sorted_sorted_lt {l : List Nat} (h : l.Sorted (· ≤ ·)) :
    (unique_sorted l).Sorted (· < ·) := by
  induction l using unique_sorted.induct with
  | case1 => exact List.sorted_nil
  | case2 a => simp [unique_sorted]
  | case3 b rest ih =>
    rw [unique_sorted, if_pos rfl]
    exact ih (List.sorted_cons.1 h).2
  | case4 a b rest hab ih =>
    rw [unique_sorted, if_neg hab]
    rcases List.sorted_cons.1 h with ⟨hall, htail⟩
    refine List.sorted_cons.2 ⟨?_, ih htail⟩
    intro x hx
    have hx' : x ∈ b :: rest := unique_sorted_mem.1 hx
    have hab' : a < b := lt_of_le_of_ne (hall b (List.mem_cons_self _ _)) hab
    rcases List.mem_cons.1 hx' with h1 | h1
    · exact h1 ▸ hab'
    · exact lt_of_lt_of_le hab' ((List.sorted_cons.1 htail).1 x h1)

theorem unify_reflectables_congr {a1 a2 : List Wall} {mem : List Nat}
    (h : ∀ m ∈ mem, a1.getD m default = a2.getD m default) :
    unify_reflectables a1 mem = unify_reflectables a2 mem := by
  unfold unify_reflectables
  rw [flatMap_congr fun m hm => by rw [h m hm]]

theorem unify_reflectables_mem (arena : List Wall) (mem : List Nat) (x : Nat) :
    x ∈ unify_reflectables arena mem ↔
      ∃ m ∈ mem, x ∈ (arena.getD m default).direct_reflectables := by
  unfold unify_reflectables
  rw [unique_sorted_mem, List.mem_insertionSort, List.mem_flatMap]

theorem unify_reflectables_sorted (arena : List Wall) (mem : List Nat) :
    (unify_reflectables arena mem).Sorted (· < ·) :=
  unique_sorted_sorted_lt (List.sorted_insertionSort _ _)

/-! ### C7: the unified set is independent of member processing order -/

/-- C7: the unified directly-reflectable list computed for a plane group is the
same for every permutation of the group's member walls: the sorted,
deduplicated union does not depend on the processing order. -/
theorem unify_reflectables_perm (arena : List Wall) {m1 m2 : List Nat}
    (h : m1.Perm m2) :
    unify_reflectables arena m1 = unify_reflectables arena m2 := by
  unfold unify_reflectables
  congr 1
  refine List.eq_of_perm_of_sorted ?_ (List.sorted_insertionSort _ _)
    (List.sorted_insertionSort _ _)
  exact (List.perm_insertionSort _ _).trans
    ((h.flatMap_right _).trans (List.perm_insertionSort _ _).symm)

theorem unify_reflectables_perm_witness :
    ([0, 1] : List Nat).Perm [1, 0] ∧
      unify_reflectables [mkWall 0 true (0, 0, 1) 0 [3], mkWall 1 true (0, 0, 1) 0 [2, 3]] [0, 1] =
        unify_reflectables [mkWall 0 true (0, 0, 1) 0 [3], mkWall 1 true (0, 0, 1) 0 [2, 3]] [1, 0] :=
  ⟨by decide,
   unify_reflectables_perm [mkWall 0 true (0, 0, 1) 0 [3], mkWall 1 true (0, 0, 1) 0 [2, 3]]
     (by decide)⟩

/-! ### C6: the unified set is assigned to the representative only -/

/-- C6 counterexample: with one plane group of two member walls holding
reflectable lists `[5]` and `[7]`, the aggregation writes the unified list
`[5, 7]` to the representative (`group[0]`) only; the second member keeps its
own list `[7]`, so not every member wall of the group holds the unified set. -/
theorem aggregate_reflectables_not_groupwide :
    ((aggregate_reflectables [{ rep := 0, rest := [1] }]
        [mkWall 0 true (0, 0, 1) 0 [5], mkWall 1 true (0, 0, 1) 0 [7]]).getD 0
          default).direct_reflectables = [5, 7] ∧
    ((aggregate_reflectables [{ rep := 0, rest := [1] }]
        [mkWall 0 true (0, 0, 1) 0 [5], mkWall 1 true (0, 0, 1) 0 [7]]).getD 1
          default).direct_reflectables = [7] ∧
    unify_reflectables [mkWall 0 true (0, 0, 1) 0 [5], mkWall 1 true (0, 0, 1) 0 [7]] [0, 1] =
      [5, 7] ∧
    ((aggregate_reflectables [{ rep := 0, rest := [1] }]
        [mkWall 0 true (0, 0, 1) 0 [5], mkWall 1 true (0, 0, 1) 0 [7]]).getD 1
          default).direct_reflectables ≠
      unify_reflectables [mkWall 0 true (0, 0, 1) 0 [5], mkWall 1 true (0, 0, 1) 0 [7]] [0, 1] := by
  decide

theorem Group.rep_mem_members (g : Group) : g.rep ∈ g.members :=
  List.mem_cons_self _ _

theorem Group.rest_subset_members {g : Group} {m : Nat} (h : m ∈ g.rest) :
    m ∈ g.members :=
  List.mem_cons_of_mem _ h

theorem Group.members_nodup_rep {g : Group} (h : g.members.Nodup) {m : Nat}
    (hm : m ∈ g.rest) : m ≠ g.rep := by
  have h' : (g.rep :: g.rest).Nodup := h
  rcases List.nodup_cons.1 h' with ⟨hnr, _⟩
  exact fun hc => hnr (hc ▸ hm)

theorem nodup_flatMap_members {gs : List Group}
    (h : (gs.flatMap Group.members).Nodup)
    {g : Group} (hg : g ∈ gs) {m : Nat} (hm : m ∈ g.rest)
    {g' : Group} (hg' : g' ∈ gs) : m ≠ g'.rep := by
  induction gs with
  | nil => cases hg
  | cons g0 rest ih =>
    rw [List.flatMap_cons, List.nodup_append] at h
    rcases h with ⟨hl, hr, hdisj⟩
    rcases List.mem_cons.1 hg with hghead | hgtail
    · rcases List.mem_cons.1 hg' with hg'head | hg'tail
      · intro hcontra
        have hnd : g.members.Nodup := hghead ▸ hl
        have hrep : m = g.rep := by rw [hcontra, hg'head, ← hghead]
        exact Group.members_nodup_rep hnd hm hrep
      · intro hcontra
        refine hdisj (a := m) ?_ ?_
        · rw [← hghead] at hl ⊢
          exact Group.rest_subset_members hm
        · refine List.mem_flatMap.2 ⟨g', hg'tail, ?_⟩
          rw [hcontra]
          exact Group.rep_mem_members g'
    · rcases List.mem_cons.1 hg' with hg'head | hg'tail
      · intro hcontra
        refine hdisj (a := m) ?_ ?_
        · rw [hcontra, hg'head]
          exact Group.rep_mem_members g0
        · exact List.mem_flatMap.2 ⟨g, hgtail, Group.rest_subset_members hm⟩
      · exact ih hr hgtail hg'tail

theorem aggregate_fold (gs : List Group) (arena : List Wall)
    (hnd : (gs.flatMap Group.members).Nodup)
    (hval : ∀ g ∈ gs, ∀ m ∈ g.members, m < arena.length) :
    (∀ x, (∀ g ∈ gs, x ≠ g.rep) →
      (aggregate_reflectables gs arena).getD x default = arena.getD x default) ∧
    (∀ g ∈ gs,
      (aggregate_reflectables gs arena).getD g.rep default =
        { arena.getD g.rep default with
            direct_reflectables := unify_reflectables arena g.members }) := by
  induction gs generalizing arena with
  | nil => exact ⟨fun _ _ => rfl, fun _ h => absurd h (List.not_mem_nil _)⟩
  | cons g rest ih =>
    rw [List.flatMap_cons, List.nodup_append] at hnd
    rcases hnd with ⟨hl, hr, hdisj⟩
    have hrepval : g.rep < arena.length :=
      hval g (List.mem_cons_self _ _) g.rep (List.mem_cons_self _ _)
    set arena1 := modifyWall arena g.rep
      (fun x => { x with direct_reflectables := unify_reflectables arena g.members }) with ha1
    have hlen1 : arena1.length = arena.length := modifyWall_length _ _ _
    have hframe : ∀ m, m ≠ g.rep → arena1.getD m default = arena.getD m default :=
      fun m hm => getD_modifyWall_ne (fun h => hm h.symm) _ _
    have hrestmem : ∀ g' ∈ rest, ∀ m ∈ g'.members, m ≠ g.rep := by
      intro g' hg' m hmem hcontra
      refine hdisj (a := m) ?_ (List.mem_flatMap.2 ⟨g', hg', hmem⟩)
      rw [hcontra]
      exact Group.rep_mem_members g
    have hagg : aggregate_reflectables (g :: rest) arena = aggregate_reflectables rest arena1 := by
      rw [aggregate_reflectables, List.foldl_cons, ← ha1, ← aggregate_reflectables]
    rcases ih arena1 hr (fun g' hg' m hm => by rw [hlen1]; exact hval g' (List.mem_cons_of_mem _ hg') m hm)
      with ⟨ihframe, ihrep⟩
    constructor
    · intro x hx
      rw [hagg, ihframe x (fun g' hg' => hx g' (List.mem_cons_of_mem _ hg')),
        hframe x (hx g (List.mem_cons_self _ _))]
    · intro g' hg'
      rcases List.mem_cons.1 hg' with hh | ht
      · subst hh
        have hnorep : ∀ g'' ∈ rest, g'.rep ≠ g''.rep := by
          intro g'' hg'' hcontra
          exact hrestmem g'' hg'' g''.rep (List.mem_cons_self _ _) hcontra.symm
        rw [hagg, ihframe g'.rep hnorep, ha1, getD_modifyWall_self hrepval]
      · rw [hagg, ihrep g' ht,
          hframe g'.rep (hrestmem g' ht g'.rep (List.mem_cons_self _ _)),
          unify_reflectables_congr (fun m hm => hframe m (hrestmem g' ht m hm))]

/-- C6 amended: per plane group the aggregation computes the union of every
member wall's directly-reflectable list, removes duplicates using the total
order over wall identity (the result is strictly sorted and contains exactly
the union's elements), and assigns the unified list to the group's first
member (`group[0]`, the representative) only — the other member walls keep
their previous lists. -/
theorem aggregate_reflectables_spec (pmap : List Group) (arena : List Wall)
    (hnd : (pmap.flatMap Group.members).Nodup)
    (hval : ∀ g ∈ pmap, ∀ m ∈ g.members, m < arena.length) :
    ∀ g ∈ pmap,
      ((aggregate_reflectables pmap arena).getD g.rep default =
        { arena.getD g.rep default with
            direct_reflectables := unify_reflectables arena g.members }) ∧
      (∀ m ∈ g.rest,
        (aggregate_reflectables pmap arena).getD m default = arena.getD m default) ∧
      (unify_reflectables arena g.members).Sorted (· < ·) ∧
      (∀ x, x ∈ unify_reflectables arena g.members ↔
        ∃ m ∈ g.members, x ∈ (arena.getD m default).direct_reflectables) := by
  intro g hg
  rcases aggregate_fold pmap arena hnd hval with ⟨hframe, hrep⟩
  refine ⟨hrep g hg, ?_, unify_reflectables_sorted _ _, unify_reflectables_mem _ _⟩
  intro m hm
  exact hframe m fun g' hg' => nodup_flatMap_members hnd hg hm hg'

theorem aggregate_reflectables_spec_witness :
    (([{ rep := 0, rest := [1] }] : List Group).flatMap Group.members).Nodup ∧
    (∀ g ∈ ([{ rep := 0, rest := [1] }] : List Group), ∀ m ∈ g.members,
      m < ([mkWall 0 true (0, 0, 1) 0 [5], mkWall 1 true (0, 0, 1) 0 [7]] : List Wall).length) ∧
    ∀ g ∈ ([{ rep := 0, rest := [1] }] : List Group),
      ((aggregate_reflectables [{ rep := 0, rest := [1] }]
          [mkWall 0 true (0, 0, 1) 0 [5], mkWall 1 true (0, 0, 1) 0 [7]]).getD g.rep default =
        { ([mkWall 0 true (0, 0, 1) 0 [5], mkWall 1 true (0, 0, 1) 0 [7]] : List Wall).getD g.rep default with
            direct_reflectables :=
              unify_reflectables [mkWall 0 true (0, 0, 1) 0 [5], mkWall 1 true (0, 0, 1) 0 [7]] g.members }) ∧
      (∀ m ∈ g.rest,
        (aggregate_reflectables [{ rep := 0, rest := [1] }]
          [mkWall 0 true (0, 0, 1) 0 [5], mkWall 1 true (0, 0, 1) 0 [7]]).getD m default =
          ([mkWall 0 true (0, 0, 1) 0 [5], mkWall 1 true (0, 0, 1) 0 [7]] : List Wall).getD m default) ∧
      (unify_reflectables [mkWall 0 true (0, 0, 1) 0 [5], mkWall 1 true (0, 0, 1) 0 [7]] g.members).Sorted (· < ·) ∧
      (∀ x, x ∈ unify_reflectables [mkWall 0 true (0, 0, 1) 0 [5], mkWall 1 true (0, 0, 1) 0 [7]] g.members ↔
        ∃ m ∈ g.members,
          x ∈ (([mkWall 0 true (0, 0, 1) 0 [5], mkWall 1 true (0, 0, 1) 0 [7]] : List Wall).getD m default).direct_reflectables) :=
  ⟨by decide, by decide,
   aggregate_reflectables_spec [{ rep := 0, rest := [1] }]
     [mkWall 0 true (0, 0, 1) 0 [5], mkWall 1 true (0, 0, 1) 0 [7]] (by decide) (by decide)⟩

/-! ### Helper lemmas for the plane-polygon map scan -/

/-- When the last group's representative already carries the scanned wall's id,
the scan can never append a group (the same-id skip fires at the last index),
so `pmap.length - i + 1` fuel suffices. -/
theorem innerScan_isSome_of_lastRep (w : Nat) (arena : List Wall) :
    ∀ fuel i pmap, pmap.length - i + 1 ≤ fuel →
      (∀ g, pmap.getLast? = some g →
        (arena.getD w default).id = (arena.getD g.rep default).id) →
      (innerScan w fuel i pmap arena).isSome = true := by
  intro fuel
  induction fuel with
  | zero => intro i pmap hf _; omega
  | succ fuel ih =>
    intro i pmap hf hlast
    rw [innerScan]
    by_cases h : i < pmap.length
    · rw [dif_pos h]
      by_cases h1 : (arena.getD w default).id = (arena.getD (pmap.get ⟨i, h⟩).rep default).id
      · rw [if_pos h1]
        exact ih (i + 1) pmap (by omega) hlast
      · rw [if_neg h1]
        by_cases h2 : same_normal (arena.getD (pmap.get ⟨i, h⟩).rep default) (arena.getD w default) = true
        · rw [if_pos h2]; rfl
        · rw [if_neg h2]
          by_cases h3 : i = pmap.length - 1
          · exfalso
            refine h1 (hlast (pmap.get ⟨i, h⟩) ?_)
            rw [List.getLast?_eq_getElem?, ← h3]
            exact (List.getElem?_eq_getElem h).trans (by rw [List.get_eq_getElem])
          · rw [if_neg h3]
            exact ih (i + 1) pmap (by omega) hlast
    · rw [dif_neg h]; rfl

/-- The group scan always terminates within its fuel: at most one group can be
appended per scanned wall, so `pmap.length - i + 3` fuel suffices. -/
theorem innerScan_isSome (w : Nat) :
    ∀ fuel i pmap (arena : List Wall), pmap.length - i + 3 ≤ fuel →
      (innerScan w fuel i pmap arena).isSome = true := by
  intro fuel
  induction fuel with
  | zero => intro i pmap arena hf; omega
  | succ fuel ih =>
    intro i pmap arena hf
    rw [innerScan]
    by_cases h : i < pmap.length
    · rw [dif_pos h]
      by_cases h1 : (arena.getD w default).id = (arena.getD (pmap.get ⟨i, h⟩).rep default).id
      · rw [if_pos h1]
        exact ih (i + 1) pmap arena (by omega)
      · rw [if_neg h1]
        by_cases h2 : same_normal (arena.getD (pmap.get ⟨i, h⟩).rep default) (arena.getD w default) = true
        · rw [if_pos h2]; rfl
        · rw [if_neg h2]
          by_cases h3 : i = pmap.length - 1
          · rw [if_pos h3]
            refine innerScan_isSome_of_lastRep w _ fuel (i + 1) _ ?_ ?_
            · simp only [List.length_append, List.length_singleton]
              omega
            · intro g hg
              rw [List.getLast?_concat] at hg
              cases hg
              rfl
          · rw [if_neg h3]
            exact ih (i + 1) pmap arena (by omega)
    · rw [dif_neg h]; rfl

/-- The group scan never removes groups. -/
theorem innerScan_length_mono (w : Nat) :
    ∀ fuel i pmap (arena : List Wall) pmap' arena',
      innerScan w fuel i pmap arena = some (pmap', arena') →
      pmap.length ≤ pmap'.length := by
  intro fuel
  induction fuel with
  | zero => intro i pmap arena pmap' arena' h; rw [innerScan] at h; cases h
  | succ fuel ih =>
    intro i pmap arena pmap' arena' h
    rw [innerScan] at h
    by_cases hi : i < pmap.length
    · rw [dif_pos hi] at h
      by_cases h1 : (arena.getD w default).id = (arena.getD (pmap.get ⟨i, hi⟩).rep default).id
      · rw [if_pos h1] at h
        exact ih _ _ _ _ _ h
      · rw [if_neg h1] at h
        by_cases h2 : same_normal (arena.getD (pmap.get ⟨i, hi⟩).rep default) (arena.getD w default) = true
        · rw [if_pos h2] at h
          cases h
          rw [List.length_set]
        · rw [if_neg h2] at h
          by_cases h3 : i = pmap.length - 1
          · rw [if_pos h3] at h
            have := ih _ _ _ _ _ h
            rw [List.length_append] at this
            omega
          · rw [if_neg h3] at h
            exact ih _ _ _ _ _ h
    · rw [dif_neg hi] at h
      cases h
      exact le_refl _

theorem processWall_isSome (pmap : List Group) (arena : List Wall) (w : Nat) :
    (processWall pmap arena w).isSome = true := by
  unfold processWall
  by_cases h : (arena.getD w default).enabled = true
  · rw [if_pos h]
    exact innerScan_isSome w _ 0 pmap arena (by omega)
  · rw [if_neg h]; rfl

theorem processWall_length_mono (pmap : List Group) (arena : List Wall) (w : Nat)
    (pmap' : List Group) (arena' : List Wall)
    (h : processWall pmap arena w = some (pmap', arena')) :
    pmap.length ≤ pmap'.length := by
  unfold processWall at h
  by_cases he : (arena.getD w default).enabled = true
  · rw [if_pos he] at h
    exact innerScan_length_mono w _ _ _ _ _ _ h
  · rw [if_neg he] at h
    cases h
    exact le_refl _

theorem foldlM_processWall_isSome (l : List Nat) :
    ∀ st : List Group × List Wall,
      ((l.foldlM (fun st x => processWall st.1 st.2 x) st).isSome : Bool) = true := by
  induction l with
  | nil => intro st; rfl
  | cons x l ih =>
    intro st
    rw [List.foldlM_cons]
    rcases Option.isSome_iff_exists.1 (processWall_isSome st.1 st.2 x) with ⟨st1, hst1⟩
    rw [hst1]
    simpa using ih st1

theorem foldlM_processWall_length_mono (l : List Nat) :
    ∀ (st out : List Group × List Wall),
      l.foldlM (fun st x => processWall st.1 st.2 x) st = some out →
      st.1.length ≤ out.1.length := by
  induction l with
  | nil => intro st out h; cases h; exact le_refl _
  | cons x l ih =>
    intro st out h
    rw [List.foldlM_cons] at h
    cases hp : processWall st.1 st.2 x with
    | none => rw [hp] at h; cases h
    | some st1 =>
      rw [hp] at h
      simp only [Option.bind_eq_bind, Option.some_bind] at h
      exact le_trans (processWall_length_mono _ _ _ _ _ hp) (ih st1 out h)

/-! ### C10: the mapper reads the first wall before any emptiness check -/

/-- C10: `create_plane_polygon_map` accesses `walls_to_check[0]` before any
emptiness check; for every non-empty wall list the access is in bounds and the
whole pass terminates (`isSome`: the in-loop growth of the map cannot outrun
the scan), while for the empty list the unchecked access faults (`none`), so
callers must supply at least one wall. -/
theorem create_plane_polygon_map_total (pmap0 : List Group) (arena : List Wall)
    (idxs : List Nat) :
    (idxs ≠ [] → (create_plane_polygon_map pmap0 arena idxs).isSome = true) ∧
    create_plane_polygon_map pmap0 arena [] = none := by
  constructor
  · intro hne
    unfold create_plane_polygon_map
    cases hs : List.insertionSort (keyLe fun p => (arena.getD p default).id) idxs with
    | nil =>
      exact absurd ((hs ▸ List.perm_insertionSort _ idxs).symm.eq_nil) hne
    | cons w0 rest =>
      exact foldlM_processWall_isSome _ _
  · rfl

theorem create_plane_polygon_map_total_witness :
    ([0] : List Nat) ≠ [] ∧
      (create_plane_polygon_map [] [mkWall 0 true (0, 0, 1) 0 []] [0]).isSome = true :=
  ⟨by decide, (create_plane_polygon_map_total [] [mkWall 0 true (0, 0, 1) 0 []] [0]).1 (by decide)⟩

/-! ### C5: a second mapper run is not idempotent -/

/-- C5 counterexample: running `create_plane_polygon_map` twice over one
enabled wall: the first run (from the empty member state) produces the single
group `[{0}]`; the second run, which starts from that state, unconditionally
re-appends the first wall as a new group and ends with `[{0}, {0}]` — not the
same groupings. -/
theorem create_plane_polygon_map_twice_ne :
    create_plane_polygon_map [] [mkWall 0 true (0, 0, 1) 0 []] [0] =
      some ([{ rep := 0, rest := [] }], [mkWall 0 true (0, 0, 1) 0 []]) ∧
    create_plane_polygon_map [{ rep := 0, rest := [] }] [mkWall 0 true (0, 0, 1) 0 []] [0] =
      some ([{ rep := 0, rest := [] }, { rep := 0, rest := [] }],
            [mkWall 0 true (0, 0, 1) 0 []]) ∧
    ([{ rep := 0, rest := [] }, { rep := 0, rest := [] }] : List Group) ≠
      [{ rep := 0, rest := [] }] := by
  decide

/-- C5 amended: the second run of `create_plane_polygon_map` over the same wall
set never reproduces the first run's map state: the pass appends the first
scanned wall as a fresh group before the loop and the loop never removes
groups, so the map strictly grows (a single run from the empty member state is
deterministic, being a function of its input). -/
theorem create_plane_polygon_map_second_run_grows (arena : List Wall) (idxs : List Nat)
    (m1 : List Group) (a1 : List Wall) (m2 : List Group) (a2 : List Wall)
    (_h1 : create_plane_polygon_map [] arena idxs = some (m1, a1))
    (h2 : create_plane_polygon_map m1 a1 idxs = some (m2, a2)) :
    m1.length < m2.length ∧ m2 ≠ m1 := by
  have key : ∀ (p0 : List Group) (ar : List Wall) (m : List Group) (a : List Wall),
      create_plane_polygon_map p0 ar idxs = some (m, a) → p0.length < m.length := by
    intro p0 ar m a h
    unfold create_plane_polygon_map at h
    cases hs : List.insertionSort (keyLe fun p => (ar.getD p default).id) idxs with
    | nil => rw [hs] at h; cases h
    | cons w0 rest =>
      rw [hs] at h
      have := foldlM_processWall_length_mono _ _ _ h
      simp only [List.length_append, List.length_singleton] at this
      omega
  have hlt := key m1 a1 m2 a2 h2
  exact ⟨hlt, fun he => by rw [he] at hlt; omega⟩

theorem create_plane_polygon_map_second_run_grows_witness :
    ([{ rep := 0, rest := [] }] : List Group).length <
      ([{ rep := 0, rest := [] }, { rep := 0, rest := [] }] : List Group).length ∧
    ([{ rep := 0, rest := [] }, { rep := 0, rest := [] }] : List Group) ≠
      [{ rep := 0, rest := [] }] :=
  create_plane_polygon_map_second_run_grows [mkWall 0 true (0, 0, 1) 0 []] [0]
    [{ rep := 0, rest := [] }] [mkWall 0 true (0, 0, 1) 0 []]
    [{ rep := 0, rest := [] }, { rep := 0, rest := [] }] [mkWall 0 true (0, 0, 1) 0 []]
    (by decide) (by decide)

/-! ### C4: a disabled first wall still lands in group 0 -/

/-- C4 (the code evaluated at the failing input): when the first wall in
ascending-id order is disabled, `create_plane_polygon_map` still pushes it
unconditionally as group 0 before the scan loop, so a disabled wall belongs to
a group — the invariant that disabled walls receive no group assignment does
not hold for the code in exactly the edge case the claim calls out. -/
theorem create_plane_polygon_map_disabled_first_in_group :
    create_plane_polygon_map []
        [mkWall 0 false (0, 0, 1) 0 [], mkWall 1 true (0, 0, 1) 5 []] [0, 1] =
      some ([{ rep := 0, rest := [] }, { rep := 1, rest := [] }],
            [mkWall 0 false (0, 0, 1) 0 [],
             { mkWall 1 true (0, 0, 1) 5 [] with plane_polygon_map_id := 1 }]) ∧
    (([mkWall 0 false (0, 0, 1) 0 [], mkWall 1 true (0, 0, 1) 5 []] : List Wall).getD 0
        default).enabled = false ∧
    (([{ rep := 0, rest := [] }, { rep := 1, rest := [] }] : List Group).flatMap
        Group.members).count 0 = 1 := by
  decide

/-! ### Helper lemmas for the identifier harmonisation -/

theorem modifyWall_oob {arena : List Wall} {i : Nat} (h : arena.length ≤ i)
    (f : Wall → Wall) : modifyWall arena i f = arena := by
  unfold modifyWall
  rw [List.get?_eq_none.2 h]

theorem parent_modifyWall (arena : List Wall) (i : Nat) (f : Wall → Wall)
    (hf : ∀ w, (f w).parent_id = w.parent_id) (x : Nat) :
    ((modifyWall arena i f).getD x default).parent_id =
      (arena.getD x default).parent_id := by
  by_cases hx : i = x
  · subst hx
    by_cases hi : i < arena.length
    · rw [getD_modifyWall_self hi, hf]
    · rw [modifyWall_oob (le_of_not_lt hi)]
  · rw [getD_modifyWall_ne hx]

theorem harmonizeInner_length (i : Nat) :
    ∀ (pidx : List Nat) (arena : List Wall) (c : Nat),
      (harmonizeInner i arena c pidx).length = arena.length := by
  intro pidx
  induction pidx with
  | nil => intro arena c; rfl
  | cons p rest ih =>
    intro arena c
    rw [harmonizeInner]
    by_cases h : (arena.getD p default).parent_id = i
    · rw [if_pos h, ih, modifyWall_length]
    · rw [if_neg h, ih]

theorem harmonizeInner_parent (i : Nat) :
    ∀ (pidx : List Nat) (arena : List Wall) (c x : Nat),
      ((harmonizeInner i arena c pidx).getD x default).parent_id =
        (arena.getD x default).parent_id := by
  intro pidx
  induction pidx with
  | nil => intro arena c x; rfl
  | cons p rest ih =>
    intro arena c x
    rw [harmonizeInner]
    by_cases h : (arena.getD p default).parent_id = i
    · rw [if_pos h, ih,
        parent_modifyWall arena p (fun w => { w with id := w.parent_id * 1000 + c })
          fun w => rfl]
    · rw [if_neg h, ih]

theorem harmonizeInner_not_mem (i : Nat) :
    ∀ (pidx : List Nat) (arena : List Wall) (c x : Nat), x ∉ pidx →
      (harmonizeInner i arena c pidx).getD x default = arena.getD x default := by
  intro pidx
  induction pidx with
  | nil => intro arena c x _; rfl
  | cons p rest ih =>
    intro arena c x hx
    have hxp : x ≠ p := fun he => hx (he ▸ List.mem_cons_self _ _)
    have hxr : x ∉ rest := fun he => hx (List.mem_cons_of_mem _ he)
    rw [harmonizeInner]
    by_cases h : (arena.getD p default).parent_id = i
    · rw [if_pos h, ih _ _ _ hxr, getD_modifyWall_ne fun he => hxp he.symm]
    · rw [if_neg h, ih _ _ _ hxr]

theorem harmonizeInner_parent_ne (i : Nat) :
    ∀ (pidx : List Nat) (arena : List Wall) (c x : Nat),
      (arena.getD x default).parent_id ≠ i →
      (harmonizeInner i arena c pidx).getD x default = arena.getD x default := by
  intro pidx
  induction pidx with
  | nil => intro arena c x _; rfl
  | cons p rest ih =>
    intro arena c x hx
    rw [harmonizeInner]
    by_cases h : (arena.getD p default).parent_id = i
    · have hxp : x ≠ p := fun he => hx (he ▸ h)
      rw [if_pos h]
      rw [ih _ _ _ (by
          rw [parent_modifyWall arena p (fun w => { w with id := w.parent_id * 1000 + c })
            fun w => rfl]
          exact hx),
        getD_modifyWall_ne fun he => hxp he.symm]
    · rw [if_neg h, ih _ _ _ hx]

/-- The inner loop assigns `i * 1000 + counter + (number of earlier walls of
parent `i`)` to the wall at production position `k` when that wall's parent is
`i`. -/
theorem harmonizeInner_id (i : Nat) :
    ∀ (pidx : List Nat) (arena : List Wall) (c k : Nat) (hk : k < pidx.length),
      pidx.Nodup → (∀ q ∈ pidx, q < arena.length) →
      (arena.getD (pidx.get ⟨k, hk⟩) default).parent_id = i →
      ((harmonizeInner i arena c pidx).getD (pidx.get ⟨k, hk⟩) default).id =
        i * 1000 + c +
          (pidx.take k).countP fun q => (arena.getD q default).parent_id == i := by
  intro pidx
  induction pidx with
  | nil => intro arena c k hk; simp at hk
  | cons p rest ih =>
    intro arena c k hk hnd hval hpar
    rcases List.nodup_cons.1 hnd with ⟨hpnot, hndr⟩
    rw [harmonizeInner]
    cases k with
    | zero =>
      have hp : (p :: rest).get ⟨0, hk⟩ = p := rfl
      rw [hp] at hpar ⊢
      rw [if_pos hpar]
      rw [harmonizeInner_not_mem i rest _ _ p hpnot]
      have hplen : p < arena.length := hval p (List.mem_cons_self _ _)
      rw [getD_modifyWall_self hplen]
      simp [hpar]
      simpa using hpar
    | succ k' =>
      have hk' : k' < rest.length := by simpa using hk
      have hgs : (p :: rest).get ⟨k' + 1, hk⟩ = rest.get ⟨k', hk'⟩ := rfl
      rw [hgs] at hpar ⊢
      have htake : (p :: rest).take (k' + 1) = p :: rest.take k' := rfl
      by_cases h : (arena.getD p default).parent_id = i
      · rw [if_pos h]
        have hpar1 : ∀ x,
            (((modifyWall arena p fun w => { w with id := w.parent_id * 1000 + c }).getD x
              default)).parent_id = (arena.getD x default).parent_id :=
          parent_modifyWall arena p _ fun w => rfl
        rw [ih _ (c + 1) k' hk' hndr
          (fun q hq => by rw [modifyWall_length]; exact hval q (List.mem_cons_of_mem _ hq))
          (by rw [hpar1]; exact hpar)]
        have hcp : ((rest.take k').countP fun q =>
              (((modifyWall arena p fun w => { w with id := w.parent_id * 1000 + c }).getD q
                default)).parent_id == i) =
            (rest.take k').countP fun q => (arena.getD q default).parent_id == i :=
          List.countP_congr fun x _ => by
            simp only [beq_iff_eq]
            rw [hpar1 x]
        rw [hcp, htake, List.countP_cons]
        have htrue : ((arena.getD p default).parent_id == i) = true := by simpa using h
        rw [htrue, if_pos rfl]
        omega
      · rw [if_neg h]
        rw [ih _ c k' hk' hndr (fun q hq => hval q (List.mem_cons_of_mem _ hq)) hpar]
        rw [htake, List.countP_cons]
        have hfalse : ((arena.getD p default).parent_id == i) = false := by
          simpa using h
        rw [hfalse, if_neg Bool.false_ne_true]
        omega

theorem harmonize_fold_parent (pidx : List Nat) :
    ∀ (L : List Nat) (arena : List Wall) (x : Nat),
      ((L.foldl (fun ar i => harmonizeInner i ar 0 pidx) arena).getD x default).parent_id =
        (arena.getD x default).parent_id := by
  intro L
  induction L with
  | nil => intro arena x; rfl
  | cons i L ih =>
    intro arena x
    rw [List.foldl_cons, ih, harmonizeInner_parent]

theorem harmonize_fold_length (pidx : List Nat) :
    ∀ (L : List Nat) (arena : List Wall),
      (L.foldl (fun ar i => harmonizeInner i ar 0 pidx) arena).length = arena.length := by
  intro L
  induction L with
  | nil => intro arena; rfl
  | cons i L ih =>
    intro arena
    rw [List.foldl_cons, ih, harmonizeInner_length]

theorem harmonize_fold_frame (pidx : List Nat) (P : Nat) :
    ∀ (L : List Nat) (arena : List Wall) (x : Nat), P ∉ L →
      (arena.getD x default).parent_id = P →
      (L.foldl (fun ar i => harmonizeInner i ar 0 pidx) arena).getD x default =
        arena.getD x default := by
  intro L
  induction L with
  | nil => intro arena x _ _; rfl
  | cons i L ih =>
    intro arena x hPL hpar
    have hiP : i ≠ P := fun he => hPL (he ▸ List.mem_cons_self _ _)
    have hstep : (harmonizeInner i arena 0 pidx).getD x default = arena.getD x default :=
      harmonizeInner_parent_ne i pidx arena 0 x (by rw [hpar]; exact fun he => hiP he.symm)
    rw [List.foldl_cons,
      ih _ _ (fun he => hPL (List.mem_cons_of_mem _ he)) (by rw [hstep, hpar]), hstep]

theorem countP_take_mono {α : Type} (p : α → Bool) (l : List α) {a b : Nat} (h : a ≤ b) :
    (l.take a).countP p ≤ (l.take b).countP p := by
  have h1 : l.take b = l.take a ++ (l.take b).drop a := by
    conv_lhs => rw [← List.take_append_drop a (l.take b)]
    rw [List.take_take, Nat.min_eq_left h]
  rw [h1, List.countP_append]
  omega

/-! ### C3: harmonised identifiers -/

/-- C3: after the identifier-harmonisation pass of `set_up_room_model`, every
produced wall whose parent index is among the original walls carries id
`parent_id * 1000 + k`, where `k` is the wall's 0-based sequence number among
the produced walls sharing that parent, taken in production order (`k` is the
count of earlier same-parent walls, so it starts at 0 and increments per
match); the parent id itself is unchanged, and within one parent the assigned
ids are strictly increasing in production order (hence unique). -/
theorem harmonize_spec (nOrig : Nat) (pidx : List Nat) (arena : List Wall)
    (hnd : pidx.Nodup) (hval : ∀ q ∈ pidx, q < arena.length)
    (k : Nat) (hk : k < pidx.length)
    (hpar : (arena.getD (pidx.get ⟨k, hk⟩) default).parent_id < nOrig) :
    ((harmonize nOrig pidx arena).getD (pidx.get ⟨k, hk⟩) default).parent_id =
      (arena.getD (pidx.get ⟨k, hk⟩) default).parent_id ∧
    ((harmonize nOrig pidx arena).getD (pidx.get ⟨k, hk⟩) default).id =
      (arena.getD (pidx.get ⟨k, hk⟩) default).parent_id * 1000 +
        (pidx.take k).countP (fun q =>
          (arena.getD q default).parent_id =
            (arena.getD (pidx.get ⟨k, hk⟩) default).parent_id) ∧
    ∀ k2 (hk2 : k2 < pidx.length), k < k2 →
      (arena.getD (pidx.get ⟨k2, hk2⟩) default).parent_id =
        (arena.getD (pidx.get ⟨k, hk⟩) default).parent_id →
      ((harmonize nOrig pidx arena).getD (pidx.get ⟨k, hk⟩) default).id <
        ((harmonize nOrig pidx arena).getD (pidx.get ⟨k2, hk2⟩) default).id := by
  have key : ∀ (j : Nat) (hj : j < pidx.length),
      (arena.getD (pidx.get ⟨j, hj⟩) default).parent_id < nOrig →
      ((harmonize nOrig pidx arena).getD (pidx.get ⟨j, hj⟩) default).parent_id =
        (arena.getD (pidx.get ⟨j, hj⟩) default).parent_id ∧
      ((harmonize nOrig pidx arena).getD (pidx.get ⟨j, hj⟩) default).id =
        (arena.getD (pidx.get ⟨j, hj⟩) default).parent_id * 1000 +
          (pidx.take j).countP (fun q =>
            (arena.getD q default).parent_id ==
              (arena.getD (pidx.get ⟨j, hj⟩) default).parent_id) := by
    intro j hj hjlt
    set p := pidx.get ⟨j, hj⟩ with hp
    set P := (arena.getD p default).parent_id with hP
    have hmem : P ∈ List.range nOrig := List.mem_range.2 hjlt
    rcases List.append_of_mem hmem with ⟨L1, L2, hL⟩
    have hndrange := List.nodup_range nOrig
    rw [hL] at hndrange
    rcases List.nodup_append.1 hndrange with ⟨hnd1, hnd2, hdisj⟩
    have hPL2 : P ∉ L2 := (List.nodup_cons.1 hnd2).1
    have hPL1 : P ∉ L1 := fun hmem1 => hdisj hmem1 (List.mem_cons_self _ _)
    have hfold : harmonize nOrig pidx arena =
        L2.foldl (fun ar i => harmonizeInner i ar 0 pidx)
          (harmonizeInner P (L1.foldl (fun ar i => harmonizeInner i ar 0 pidx) arena) 0 pidx) := by
      rw [harmonize, hL, List.foldl_append, List.foldl_cons]
    set arenaA := L1.foldl (fun ar i => harmonizeInner i ar 0 pidx) arena with hA
    have hparA : ∀ x, (arenaA.getD x default).parent_id = (arena.getD x default).parent_id :=
      fun x => harmonize_fold_parent pidx L1 arena x
    have hlenA : arenaA.length = arena.length := harmonize_fold_length pidx L1 arena
    set arenaB := harmonizeInner P arenaA 0 pidx with hB
    have hidB : (arenaB.getD p default).id =
        P * 1000 + 0 + (pidx.take j).countP fun q => (arenaA.getD q default).parent_id == P := by
      rw [hB]
      exact harmonizeInner_id P pidx arenaA 0 j hj hnd
        (fun q hq => by rw [hlenA]; exact hval q hq)
        (by rw [hparA])
    have hcnt : ((pidx.take j).countP fun q => (arenaA.getD q default).parent_id == P) =
        (pidx.take j).countP fun q => (arena.getD q default).parent_id == P :=
      List.countP_congr fun x _ => by
        simp only [beq_iff_eq]
        rw [hparA x]
    have hparB : (arenaB.getD p default).parent_id = P := by
      rw [hB, harmonizeInner_parent, hparA]
    have hfinal : (harmonize nOrig pidx arena).getD p default = arenaB.getD p default := by
      rw [hfold]
      exact harmonize_fold_frame pidx P L2 arenaB p hPL2 hparB
    constructor
    · rw [hfinal, hparB]
    · rw [hfinal, hidB, hcnt]
      omega
  have hbeq : ∀ (j : Nat) (hj : j < pidx.length),
      ((pidx.take j).countP fun q =>
        (arena.getD q default).parent_id ==
          (arena.getD (pidx.get ⟨j, hj⟩) default).parent_id) =
      (pidx.take j).countP fun q =>
        decide ((arena.getD q default).parent_id =
          (arena.getD (pidx.get ⟨j, hj⟩) default).parent_id) :=
    fun j hj => List.countP_congr fun x _ => by simp
  refine ⟨(key k hk hpar).1, ?_, ?_⟩
  · rw [(key k hk hpar).2, hbeq k hk]
  · intro k2 hk2 hlt hpar2
    rw [(key k hk hpar).2, (key k2 hk2 (by rw [hpar2]; exact hpar)).2, hpar2]
    have hmono := countP_take_mono
      (fun q => (arena.getD q default).parent_id ==
        (arena.getD (pidx.get ⟨k, hk⟩) default).parent_id) pidx
      (show k + 1 ≤ k2 by omega)
    have hsucc : ((pidx.take (k + 1)).countP fun q =>
        (arena.getD q default).parent_id ==
          (arena.getD (pidx.get ⟨k, hk⟩) default).parent_id) =
        ((pidx.take k).countP fun q =>
          (arena.getD q default).parent_id ==
            (arena.getD (pidx.get ⟨k, hk⟩) default).parent_id) + 1 := by
      rw [List.take_succ, List.countP_append]
      have hkth : pidx[k]? = some (pidx.get ⟨k, hk⟩) := by
        rw [List.getElem?_eq_getElem hk, List.get_eq_getElem]
      rw [hkth]
      simp
    omega

theorem harmonize_spec_witness :
    ([0, 1, 2] : List Nat).Nodup ∧
      ((harmonize 2 [0, 1, 2] [mkPWall 0 0, mkPWall 1 0, mkPWall 2 1]).getD
          (([0, 1, 2] : List Nat).get ⟨1, by decide⟩) default).id =
        (([mkPWall 0 0, mkPWall 1 0, mkPWall 2 1] : List Wall).getD
            (([0, 1, 2] : List Nat).get ⟨1, by decide⟩) default).parent_id * 1000 +
          (([0, 1, 2] : List Nat).take 1).countP (fun q =>
            (([mkPWall 0 0, mkPWall 1 0, mkPWall 2 1] : List Wall).getD q default).parent_id =
              (([mkPWall 0 0, mkPWall 1 0, mkPWall 2 1] : List Wall).getD
                (([0, 1, 2] : List Nat).get ⟨1, by decide⟩) default).parent_id) :=
  ⟨by decide,
   (harmonize_spec 2 [0, 1, 2] [mkPWall 0 0, mkPWall 1 0, mkPWall 2 1]
     (by decide) (by decide) 1 (by decide) (by decide)).2.1⟩

/-! ### Helper lemmas for the splitting-plane selection -/

theorem orderedInsert_lex_sorted {α K : Type} [LinearOrder K] (k : α → K)
    (s : α → α → Prop) (a : α) :
    ∀ L : List α, L.Sorted (lexRel k s) → (∀ d ∈ L, s a d) →
      (L.orderedInsert (keyLe k) a).Sorted (lexRel k s) := by
  intro L
  induction L with
  | nil =>
    intro _ _
    simp [List.orderedInsert]
  | cons b L ih =>
    intro hL ha
    rcases List.sorted_cons.1 hL with ⟨hb, hL'⟩
    rw [List.orderedInsert]
    by_cases hab : keyLe k a b
    · rw [if_pos hab]
      refine List.sorted_cons.2 ⟨?_, hL⟩
      intro d hd
      have hkd : k a ≤ k d := by
        rcases List.mem_cons.1 hd with rfl | hd'
        · exact hab
        · refine le_trans hab ?_
          rcases hb d hd' with h | ⟨h, _⟩
          · exact le_of_lt h
          · exact le_of_eq h
      rcases lt_or_eq_of_le hkd with h | h
      · exact Or.inl h
      · exact Or.inr ⟨h, ha d hd⟩
    · rw [if_neg hab]
      have hba : k b < k a := not_le.1 hab
      refine List.sorted_cons.2
        ⟨?_, ih hL' fun d hd => ha d (List.mem_cons_of_mem _ hd)⟩
      intro d hd
      rcases (List.mem_orderedInsert _).1 hd with rfl | hd'
      · exact Or.inl hba
      · exact hb d hd'

theorem insertionSort_lex_sorted {α K : Type} [LinearOrder K] (k : α → K)
    (s : α → α → Prop) :
    ∀ l : List α, l.Sorted s →
      (List.insertionSort (keyLe k) l).Sorted (lexRel k s) := by
  intro l
  induction l with
  | nil =>
    intro _
    simp [List.insertionSort]
  | cons a l ih =>
    intro hl
    rcases List.sorted_cons.1 hl with ⟨ha, hl'⟩
    rw [List.insertionSort]
    exact orderedInsert_lex_sorted k s a _ (ih hl')
      fun d hd => ha d ((List.mem_insertionSort _).1 hd)

theorem find?_sorted_min {α : Type} {r : α → α → Prop} {p : α → Bool} :
    ∀ {l : List α}, l.Sorted r → ∀ {e : α}, l.find? p = some e →
      ∀ q ∈ l, p q = true → e = q ∨ r e q := by
  intro l
  induction l with
  | nil =>
    intro _ e he
    cases he
  | cons a l ih =>
    intro hl e he q hq hpq
    rcases List.sorted_cons.1 hl with ⟨hall, hl'⟩
    cases hpa : p a with
    | true =>
      simp only [List.find?_cons, hpa] at he
      cases he
      rcases List.mem_cons.1 hq with rfl | hq'
      · exact Or.inl rfl
      · exact Or.inr (hall q hq')
    | false =>
      simp only [List.find?_cons, hpa] at he
      rcases List.mem_cons.1 hq with rfl | hq'
      · rw [hpq] at hpa
        cases hpa
      · exact ih hl' he q hq' hpq

theorem headI_mem_self {α : Type} [Inhabited α] {l : List α} (h : l ≠ []) :
    l.headI ∈ l := by
  cases l with
  | nil => cases h rfl
  | cons a l => exact List.mem_cons_self _ _

theorem head_sorted_min {α : Type} [Inhabited α] {r : α → α → Prop} :
    ∀ {l : List α}, l.Sorted r → l ≠ [] → ∀ q ∈ l, l.headI = q ∨ r l.headI q := by
  intro l
  cases l with
  | nil =>
    intro _ h
    cases h rfl
  | cons a l =>
    intro hl _ q hq
    rcases List.mem_cons.1 hq with rfl | hq'
    · exact Or.inl rfl
    · exact Or.inr ((List.sorted_cons.1 hl).1 q hq')

theorem measureStep_wid (ti : Nat) (pa : PolygonSpatial) (m : Measure)
    (x : Nat × PolygonSpatial) : (measureStep ti pa m x).wid = m.wid := by
  unfold measureStep
  by_cases h : x.1 = ti
  · rw [if_pos h]
  · rw [if_neg h]
    dsimp only
    split_ifs <;> rfl

theorem measureOf_wid (polys : List PolygonSpatial) (ti : Nat) (pa : PolygonSpatial) :
    (measureOf polys ti pa).wid = ti := by
  unfold measureOf
  have key : ∀ (l : List (Nat × PolygonSpatial)) (m : Measure),
      (l.foldl (measureStep ti pa) m).wid = m.wid := by
    intro l
    induction l with
    | nil => intro m; rfl
    | cons x l ih =>
      intro m
      rw [List.foldl_cons, ih, measureStep_wid]
  rw [key]

theorem rpOf_length (polys : List PolygonSpatial) :
    (rpOf polys).length = polys.length := by
  unfold rpOf measuresOf
  rw [List.length_map, List.length_map, List.enum_length]

theorem rpOf_wid (polys : List PolygonSpatial) (j : Nat)
    (hj : j < (rpOf polys).length) : ((rpOf polys).get ⟨j, hj⟩).wid = j := by
  have hj1 : j < (measuresOf polys).length := by
    unfold rpOf at hj
    rwa [List.length_map] at hj
  have hj2 : j < polys.enum.length := by
    unfold measuresOf at hj1
    rwa [List.length_map] at hj1
  unfold rpOf measuresOf
  rw [List.get_eq_getElem, List.getElem_map, List.getElem_map, measureOf_wid,
    List.getElem_enum]

theorem rpOf_sorted_wid (polys : List PolygonSpatial) :
    (rpOf polys).Sorted (keyLe RpEntry.wid) := by
  rw [List.Sorted, List.pairwise_iff_get]
  intro i j hij
  show ((rpOf polys).get i).wid ≤ ((rpOf polys).get j).wid
  rw [rpOf_wid polys i.1 i.isLt, rpOf_wid polys j.1 j.isLt]
  exact le_of_lt hij

/-! ### C1: the splitting-plane choice -/

/-- C1 amended: for every non-empty polygon list and threshold, the chosen
splitter of `build_BSP` is a candidate of the `r_p` table (whose `wid` column
is exactly the input position); when some candidate's balance score meets or
exceeds the threshold, the choice qualifies and is least in the order
(cross count, input order) among all qualifying candidates; when no candidate
qualifies, the choice is least in the order (distance of the score to the
threshold, cross count, input order) over all candidates — fallback ties in
deviation are broken by the preceding cross-count ranking first and by input
order only within equal cross counts. -/
theorem selectSplitter_spec (polys : List PolygonSpatial) (t : ℚ) (hne : polys ≠ []) :
    (∀ j (hj : j < (rpOf polys).length), ((rpOf polys).get ⟨j, hj⟩).wid = j) ∧
    ∃ e ∈ rpOf polys, selectSplitter polys t = e.wid ∧
      ((∃ q ∈ rpOf polys, t ≤ q.score) →
        t ≤ e.score ∧ ∀ q ∈ rpOf polys, t ≤ q.score → lexCrossInput e q) ∧
      ((∀ q ∈ rpOf polys, q.score < t) →
        ∀ q ∈ rpOf polys, lexDevCrossInput t e q) := by
  refine ⟨fun j hj => rpOf_wid polys j hj, ?_⟩
  have hsorted1 : (rpSorted polys).Sorted (lexRel RpEntry.crosses (keyLe RpEntry.wid)) :=
    insertionSort_lex_sorted _ _ _ (rpOf_sorted_wid polys)
  cases hfind : thresholdPick polys t with
  | some e =>
    have hsel : selectSplitter polys t = e.wid := by
      unfold selectSplitter
      rw [hfind]
    have hmem : e ∈ rpOf polys :=
      (List.mem_insertionSort _).1 (List.mem_of_find?_eq_some hfind)
    have hpe : t ≤ e.score := by simpa using List.find?_some hfind
    refine ⟨e, hmem, hsel, ?_, ?_⟩
    · intro _
      refine ⟨hpe, ?_⟩
      intro q hq hpq
      have hq' : q ∈ rpSorted polys := (List.mem_insertionSort _).2 hq
      rcases find?_sorted_min hsorted1 hfind q hq' (by simpa using hpq) with rfl | hr
      · exact Or.inr ⟨rfl, le_refl _⟩
      · rcases hr with h | ⟨h1, h2⟩
        · exact Or.inl h
        · exact Or.inr ⟨h1, h2⟩
    · intro hall
      exact absurd hpe (not_le.2 (hall e hmem))
  | none =>
    have hsel : selectSplitter polys t = (fallbackSorted polys t).headI.wid := by
      unfold selectSplitter
      rw [hfind]
    have hallfail : ∀ q ∈ rpOf polys, q.score < t := by
      intro q hq
      have := List.find?_eq_none.1 hfind q ((List.mem_insertionSort _).2 hq)
      simpa using this
    have hMsorted : ((rpSorted polys).map fun e => { e with score := |e.score - t| }).Sorted
        (lexRel RpEntry.crosses (keyLe RpEntry.wid)) :=
      List.Pairwise.map _ (fun a b h => h) hsorted1
    have hsorted2 : (fallbackSorted polys t).Sorted
        (lexRel RpEntry.score (lexRel RpEntry.crosses (keyLe RpEntry.wid))) :=
      insertionSort_lex_sorted _ _ _ hMsorted
    have hlen2 : (fallbackSorted polys t).length = polys.length := by
      unfold fallbackSorted rpSorted
      rw [List.length_insertionSort, List.length_map, List.length_insertionSort,
        rpOf_length]
    have hne2 : fallbackSorted polys t ≠ [] := by
      intro hcontra
      have hzero := congrArg List.length hcontra
      rw [hlen2] at hzero
      exact hne (List.length_eq_zero.1 hzero)
    have he2M : (fallbackSorted polys t).headI ∈
        (rpSorted polys).map fun e => { e with score := |e.score - t| } :=
      (List.mem_insertionSort _).1 (headI_mem_self hne2)
    rcases List.mem_map.1 he2M with ⟨e, heM, hfe⟩
    have hemem : e ∈ rpOf polys := (List.mem_insertionSort _).1 heM
    refine ⟨e, hemem, ?_, ?_, ?_⟩
    · rw [hsel, ← hfe]
    · rintro ⟨q, hq, hpq⟩
      exact absurd hpq (not_le.2 (hallfail q hq))
    · intro _ q hq
      have hqF : ({ q with score := |q.score - t| } : RpEntry) ∈ fallbackSorted polys t :=
        (List.mem_insertionSort _).2
          (List.mem_map.2 ⟨q, (List.mem_insertionSort _).2 hq, rfl⟩)
      rcases head_sorted_min hsorted2 hne2 _ hqF with heq | hrel
      · rw [← hfe] at heq
        simp only [RpEntry.mk.injEq] at heq
        rcases heq with ⟨hw, hs, hc⟩
        exact Or.inr ⟨hs, Or.inr ⟨hc, le_of_eq hw⟩⟩
      · rw [← hfe] at hrel
        exact hrel

/-- C1 counterexample: on `cexPolys` with threshold 1 no candidate qualifies
and every candidate's deviation ties at 1, so the claim's input-order
tie-break mandates candidate 0; the code's fallback keeps the preceding
cross-count ranking and picks candidate 1. -/
theorem selectSplitter_fallback_ties_not_input_order :
    subspace_convex cexPolys = false ∧
    thresholdPick cexPolys 1 = none ∧
    (∀ q ∈ rpOf cexPolys, |q.score - 1| = 1) ∧
    claimFallbackChoice cexPolys 1 = 0 ∧
    selectSplitter cexPolys 1 = 1 ∧
    selectSplitter cexPolys 1 ≠ claimFallbackChoice cexPolys 1 := by
  with_unfolding_all decide

theorem selectSplitter_spec_witness :
    trioPolys ≠ [] ∧
      ((∀ j (hj : j < (rpOf trioPolys).length), ((rpOf trioPolys).get ⟨j, hj⟩).wid = j) ∧
       ∃ e ∈ rpOf trioPolys, selectSplitter trioPolys 1 = e.wid ∧
         ((∃ q ∈ rpOf trioPolys, (1 : ℚ) ≤ q.score) →
           (1 : ℚ) ≤ e.score ∧ ∀ q ∈ rpOf trioPolys, (1 : ℚ) ≤ q.score → lexCrossInput e q) ∧
         ((∀ q ∈ rpOf trioPolys, q.score < (1 : ℚ)) →
           ∀ q ∈ rpOf trioPolys, lexDevCrossInput 1 e q)) :=
  ⟨by decide, selectSplitter_spec trioPolys 1 (by decide)⟩

end RoomModel
